import Mathlib

/-!
Verification development for the DOCX recomposition engine
(`split_docx_by_heading_with_images` and its helpers `copy_numbering`,
`copy_paragraph`, `copy_table` in `test3.py`, with `test2.py` an earlier
near-duplicate of the same script).

The embedding models the python-docx block tree the scripts walk:
paragraphs with runs and inline drawings, tables with rows of cells of
blocks, a relationship table resolving relationship ids to parts, and the
driver's filesystem effects (output files written, the `temp_images`
scratch directory) as explicit data.
-/

namespace DocxSplit

/-! ## Python string primitives

The scripts use `str.strip()`, `str.join` and f-strings; these are modelled
directly over the character lists so that every definition evaluates by
kernel reduction. -/

/-- Python `s.strip()`: remove leading and trailing whitespace. -/
def pyStrip (s : String) : String :=
  ⟨((s.data.dropWhile Char.isWhitespace).reverse.dropWhile Char.isWhitespace).reverse⟩

/-- Python `sep.join(xs)`. -/
def pyJoin (sep : String) (xs : List String) : String :=
  ⟨List.intercalate sep.data (xs.map String.data)⟩

/-! ## Source block model

`iter_block_items` yields the `w:p` children as `Paragraph` and the `w:tbl`
children as `Table`, in document order; a cell's blocks are obtained the
same way.  A run's `w:drawing` descendants carry an optional first-blip
relationship id (`rIds[0].get(qn("r:embed")) if rIds else None`) and a
`wp:extent` whose `cx` attribute (schema-required on the element) gives the
declared width in EMU. -/

/-- A `w:numPr` numbering reference: numbering definition id and indent level. -/
structure NumPr where
  numId : Nat
  ilvl : Nat
deriving DecidableEq

/-- The `w:pPr` paragraph-properties element, as far as `copy_numbering`
touches it: it either is absent or holds an optional `w:numPr` child. -/
structure PPr where
  numPr : Option NumPr
deriving DecidableEq

/-- One `w:drawing` inside a run. `rId` is the first `a:blip`'s `r:embed`
attribute (`none` when there is no blip or the blip has no such attribute);
`extentCx` is the `wp:extent` element's `cx` attribute in EMU (`none` when
the drawing has no extent element). -/
structure Drawing where
  rId : Option String
  extentCx : Option Nat
deriving DecidableEq

/-- A run: text, tri-state character formatting (`none` = inherit), optional
font name / size / RGB color, and the `w:drawing` elements found under it. -/
structure Run where
  text : String
  bold : Option Bool
  italic : Option Bool
  underline : Option Bool
  fontName : Option String
  fontSize : Option Nat
  fontColor : Option Nat
  drawings : List Drawing
deriving DecidableEq

/-- A source paragraph: resolved style name (`paragraph.style.name`),
optional alignment enum value, the raw `w:pPr` element (as far as
`copy_numbering` reads it) and the ordered runs. -/
structure Paragraph where
  styleName : String
  alignment : Option Nat
  pPr : Option PPr
  runs : List Run
deriving DecidableEq

mutual
/-- A top-level or in-cell block: a paragraph or a table. -/
inductive Block where
  | para (p : Paragraph)
  | table (t : Table)

/-- A source table: style name, autofit flag, per-column widths, and rows,
each row an ordered list of cells. -/
inductive Table where
  | mk (styleName : String) (autofit : Bool) (colWidths : List Nat)
       (rows : List (List Cell))

/-- A table cell: an ordered list of blocks (paragraphs and nested tables). -/
inductive Cell where
  | mk (blocks : List Block)
end

def Table.styleName : Table → String
  | .mk s _ _ _ => s

def Table.autofit : Table → Bool
  | .mk _ a _ _ => a

def Table.colWidths : Table → List Nat
  | .mk _ _ w _ => w

def Table.rows : Table → List (List Cell)
  | .mk _ _ _ r => r

def Cell.blocks : Cell → List Block
  | .mk bs => bs

/-- python-docx `Paragraph.text`: the concatenation of the run texts. -/
def paraText (p : Paragraph) : String :=
  pyJoin "" (p.runs.map Run.text)

/-- python-docx `_Cell.text`: the cell's paragraph texts joined by newlines
(nested tables contribute nothing). -/
def cellText (c : Cell) : String :=
  pyJoin "\n" (c.blocks.filterMap fun b =>
    match b with
    | .para p => some (paraText p)
    | .table _ => none)

/-- The text read off a block when it is known to be a paragraph; the
segmenter only reads it under an `isinstance(first_block, Paragraph)` guard. -/
def blockText : Block → String
  | .para p => paraText p
  | .table _ => ""

/-- `isinstance(block, Paragraph) and block.style.name == heading_style`. -/
def isHeadingBlock (hs : String) (b : Block) : Bool :=
  match b with
  | .para p => p.styleName == hs
  | .table _ => false

/-! ## Section segmenter

`split_docx_by_heading_with_images` collects the boundary indices: `0` is
prepended unless the very first block already is a heading paragraph, every
heading paragraph's index is appended, and `len(blocks)` closes the list.
Consecutive boundary pairs are then sliced (`blocks[start:end]`), pairs with
`start == end` are skipped (`if start == end: continue`), and a title is
derived from the slice's first block. -/

/-- The indices appended by
`for i, block in enumerate(blocks): if isinstance(block, Paragraph) and block.style.name == heading_style`. -/
def headingIndices (hs : String) (blocks : List Block) : List Nat :=
  (blocks.enum.filter fun ib => isHeadingBlock hs ib.2).map Prod.fst

/-- The full `section_indices` list (the caller has already returned when
`blocks` is empty). -/
def section_indices (hs : String) (blocks : List Block) : List Nat :=
  (if ((blocks.head?.map (isHeadingBlock hs)).getD false) then [] else [0])
    ++ headingIndices hs blocks ++ [blocks.length]

/-- Python `blocks[start:end]` for a boundary pair. -/
def sliceOf (blocks : List Block) (pr : Nat × Nat) : List Block :=
  (blocks.drop pr.1).take (pr.2 - pr.1)

/-- Decimal digits of a positive number, most significant first, with the
number itself as recursion fuel. -/
def decDigitsAux : Nat → Nat → List Char
  | 0, _ => []
  | _ + 1, 0 => []
  | fuel + 1, n + 1 =>
      decDigitsAux fuel ((n + 1) / 10) ++ [Nat.digitChar ((n + 1) % 10)]

/-- Python `str(n)` for a natural number: its decimal rendering. -/
def decRepr (n : Nat) : List Char :=
  if n = 0 then ['0'] else decDigitsAux n n

/-- One iteration of the splitting loop, at loop index `ip.1` with the
boundary pair `ip.2`: `none` models `if start == end: continue`, otherwise
the slice is taken and the title derived from its first block
(`first_block.text.strip()` for a heading, else `"Introduction"`, with the
`f"Section_{i+1}"` fallback for an empty title). -/
def sectionOfPair (hs : String) (blocks : List Block) (ip : Nat × (Nat × Nat)) :
    Option (String × List Block) :=
  if ip.2.1 == ip.2.2 then none
  else
    let sb := sliceOf blocks ip.2
    let t :=
      match sb with
      | b :: _ =>
          if isHeadingBlock hs b then pyStrip (blockText b) else "Introduction"
      | [] => ""                     -- unreachable: `start < end` keeps the slice non-empty
    some ((if t == "" then "Section_" ++ (⟨decRepr (ip.1 + 1)⟩ : String) else t), sb)

/-- The `(title, section_blocks)` pairs the splitting loop accumulates.
The Python loop runs `i` over `range(len(section_indices) - 1)` and reads
`section_indices[i]` and `section_indices[i+1]`; that is exactly the
enumeration of `idx.zip idx.tail`. -/
def mkSections (hs : String) (blocks : List Block) : List (String × List Block) :=
  let idx := section_indices hs blocks
  (idx.zip idx.tail).enum.filterMap (sectionOfPair hs blocks)

/-! ## Relationship table

`source_para.part.related_parts[rId]` resolves a relationship id to a part;
a missing id raises `KeyError`.  Only whether the part is an `ImagePart`
(then: its blob and default extension) matters to the copier. -/

/-- A part reachable through the relationship table. -/
inductive RelatedPart where
  | image (blob : List Nat) (ext : String)
  | other
deriving DecidableEq

abbrev RelTable := List (String × RelatedPart)

/-- `related_parts[rId]`, with `none` for the `KeyError` case. -/
def lookupRelated (parts : RelTable) (rId : String) : Option RelatedPart :=
  (parts.find? fun pr => pr.1 == rId).map Prod.snd

/-! ## Output (target) model

What the copiers append to a target container: paragraphs made of text
runs and pictures, and tables.  A freshly added paragraph
(`add_paragraph()`) carries no style, alignment, numbering or runs. -/

/-- A run appended to an output paragraph. -/
structure TRun where
  text : String
  bold : Option Bool
  italic : Option Bool
  underline : Option Bool
  fontName : Option String
  fontSize : Option Nat
  fontColor : Option Nat
deriving DecidableEq

/-- One item appended to an output paragraph: a text run
(`target_para.add_run(...)`) or a picture
(`target_para.add_run().add_picture(img_path, width=width)`); the picture
records the scratch file name and the width in inches. -/
inductive TItem where
  | run (r : TRun)
  | picture (filename : String) (widthInches : ℚ)
deriving DecidableEq

/-- An output paragraph. -/
structure TPara where
  styleName : Option String
  alignment : Option Nat
  numPr : Option NumPr
  items : List TItem
deriving DecidableEq

/-- `target_container.add_paragraph()` with nothing else set. -/
def emptyTPara : TPara :=
  { styleName := none, alignment := none, numPr := none, items := [] }

/-- `target_container.add_paragraph(text)`: a bare paragraph holding one
plain run of the given text. -/
def plainTPara (text : String) : TPara :=
  { styleName := none, alignment := none, numPr := none,
    items := [TItem.run { text := text, bold := none, italic := none,
                          underline := none, fontName := none,
                          fontSize := none, fontColor := none }] }

/-- A block appended to an output container. -/
inductive TBlock where
  | para (p : TPara)
  | table (styleName : String) (autofit : Bool) (colWidths : List Nat)
          (rows : List (List (List TBlock)))

def TBlock.isTable : TBlock → Bool
  | .para _ => false
  | .table _ _ _ _ => true

/-! ## copy_numbering

```python
def copy_numbering(source_para, target_para):
    source_pPr = source_para._p.pPr
    if source_pPr is None: return
    numPr = source_pPr.find(qn("w:numPr"))
    if numPr is not None:
        target_pPr = target_para._p.get_or_add_pPr()
        existing_numPr = target_pPr.find(qn("w:numPr"))
        if existing_numPr is not None: target_pPr.remove(existing_numPr)
        target_pPr.append(numPr)
```

`numPr` is the live lxml element still attached to the source paragraph;
`target_pPr.append(numPr)` re-parents it, i.e. it is REMOVED from the
source paragraph's `pPr` and attached to the target.  The embedding
therefore returns the post-call source paragraph alongside the target. -/

def copy_numbering (source : Paragraph) (target : TPara) : Paragraph × TPara :=
  match source.pPr with
  | none => (source, target)
  | some pr =>
    match pr.numPr with
    | none => (source, target)
    | some np =>
        ({ source with pPr := some { pr with numPr := none } },
         { target with numPr := some np })

/-! ## copy_paragraph (image handling) -/

/-- The italic placeholder for a resolved non-image part. -/
def complexObjectMsg : String :=
  "\n[Note: A complex graphical object (e.g., a chart or diagram) was here and could not be copied.]\n"

/-- The italic placeholder for a relationship id that raises `KeyError`. -/
def brokenLinkMsg : String :=
  "\n[Note: A graphical object with a broken link was here and could not be copied.]\n"

/-- The italic placeholder for a drawing with no relationship id. -/
def shapeMsg : String :=
  "\n[Note: A shape or other drawing object was here and could not be copied.]\n"

/-- `placeholder_run = target_para.add_run(msg); placeholder_run.font.italic = True`. -/
def placeholderItem (msg : String) : TItem :=
  TItem.run { text := msg, bold := none, italic := some true, underline := none,
              fontName := none, fontSize := none, fontColor := none }

/-- The picture width: `Inches(3)` unless the drawing has a `wp:extent`
element, then `Inches(int(cx) / 914400)`.  Widths are modelled in inches as
exact rationals. -/
def drawingWidth (d : Drawing) : ℚ :=
  match d.extentCx with
  | some cx => (cx : ℚ) / 914400
  | none => 3

/-- What one `w:drawing` contributes to the target paragraph.  Python's
`if rId:` is false both for `None` and for an empty attribute value. -/
def drawingItems (parts : RelTable) (d : Drawing) : List TItem :=
  let rId := d.rId.getD ""
  if rId == "" then [placeholderItem shapeMsg]
  else
    match lookupRelated parts rId with
    | none => [placeholderItem brokenLinkMsg]
    | some (RelatedPart.image _blob ext) =>
        [TItem.picture (rId ++ "." ++ ext) (drawingWidth d)]
    | some RelatedPart.other => [placeholderItem complexObjectMsg]

/-- The text run `copy_paragraph` appends for a source run: identical text,
formatting copied field by field (absent fields stay absent). -/
def copyRunItem (rn : Run) : TItem :=
  TItem.run { text := rn.text, bold := rn.bold, italic := rn.italic,
              underline := rn.underline, fontName := rn.fontName,
              fontSize := rn.fontSize, fontColor := rn.fontColor }

/-! ## copy_paragraph

```python
def copy_paragraph(source_para, target_container, temp_img_dir):
    if not source_para.text.strip() and not any(run._element.findall('.//w:drawing', ...) for run in source_para.runs):
         if hasattr(target_container, 'add_paragraph'):
            target_container.add_paragraph()
         return
    target_para = target_container.add_paragraph()
    target_para.style = source_para.style
    target_para.paragraph_format.alignment = source_para.paragraph_format.alignment
    copy_numbering(source_para, target_para)
    for run in source_para.runs: ...
```

The embedding returns the post-call source paragraph (`copy_numbering`
moves its `w:numPr`, see above) together with the list of paragraphs
appended to the target container (both `Document` and `_Cell` have
`add_paragraph`, so the empty branch always appends one). -/

def copy_paragraph (parts : RelTable) (p : Paragraph) : Paragraph × List TPara :=
  if pyStrip (paraText p) == "" && !(p.runs.any fun rn => !rn.drawings.isEmpty) then
    (p, [emptyTPara])
  else
    let tp0 : TPara :=
      { styleName := some p.styleName, alignment := p.alignment,
        numPr := none, items := [] }
    let moved := copy_numbering p tp0
    (moved.1,
     [{ moved.2 with
        items := p.runs.flatMap fun rn =>
          copyRunItem rn :: rn.drawings.flatMap (drawingItems parts) }])

/-! ## copy_table

```python
def copy_table(source_table, target_container, temp_img_dir):
    if isinstance(target_container, Document):
         target_table = target_container.add_table(rows=0, cols=len(source_table.columns))
    elif isinstance(target_container, _Cell):
        placeholder = target_container.add_paragraph("[Nested Table Content Below]")
        try: placeholder.style = 'Caption'
        except KeyError: pass
        for nested_row in source_table.rows:
            row_text = "\t".join(cell.text.strip() for cell in nested_row.cells)
            target_container.add_paragraph(row_text)
        return
    ...
```

The root/cell branching is a runtime type inspection of the target; it is
modelled as an explicit target kind.  `captionAvailable` records whether
the target document's style catalog has a `Caption` style (the `except
KeyError: pass`). -/

inductive CopyTarget where
  | root
  | cell
deriving DecidableEq

/-- `"\t".join(cell.text.strip() for cell in nested_row.cells)`. -/
def nestedRowText (row : List Cell) : String :=
  pyJoin "\t" (row.map fun c => pyStrip (cellText c))

/-- The marker paragraph `[Nested Table Content Below]`, styled `Caption`
when that style exists. -/
def markerTPara (captionAvailable : Bool) : TPara :=
  { plainTPara "[Nested Table Content Below]" with
    styleName := if captionAvailable then some "Caption" else none }

/-- The `_Cell` branch of `copy_table`: one marker paragraph, then one
plain paragraph per source row with the row's tab-joined stripped cell
texts; no table object is created and nothing can raise. -/
def copyTableCellBranch (captionAvailable : Bool) (t : Table) : List TBlock :=
  TBlock.para (markerTPara captionAvailable)
    :: t.rows.map fun row => TBlock.para (plainTPara (nestedRowText row))

/-- `copy_table`.  In the `Document` branch the new table gets the source's
style, autofit and column widths, and each source cell's blocks are
replayed into the (cleared) target cell; a nested table there reaches the
`_Cell` branch, which recurses no further. -/
def copy_table (parts : RelTable) (captionAvailable : Bool) (t : Table) :
    CopyTarget → List TBlock
  | .cell => copyTableCellBranch captionAvailable t
  | .root =>
      [TBlock.table t.styleName t.autofit t.colWidths
        (t.rows.map fun row => row.map fun c =>
          c.blocks.flatMap fun b =>
            match b with
            | .para p => ((copy_paragraph parts p).2).map TBlock.para
            | .table nt => copyTableCellBranch captionAvailable nt)]

/-! ## Output file names

`safe_title = "".join(c for c in title if c.isalnum() or c in " _-").rstrip()[:50]`
`out_path = os.path.join(output_dir, f"{i+1:02d}_{safe_title}.docx")`

File names are modelled as character lists relative to the output
directory. -/

/-- `f"{n:02d}"`: the decimal rendering left-padded with `0` to two digits. -/
def pad2 (n : Nat) : List Char :=
  if n < 10 then '0' :: decRepr n else decRepr n

/-- The sanitized title. -/
def sanitizeTitle (title : String) : List Char :=
  ((((title.data.filter fun c =>
        c.isAlphanum || c == ' ' || c == '_' || c == '-')).reverse.dropWhile
      Char.isWhitespace).reverse).take 50

/-- `f"{n:02d}_{safe_title}.docx"` (with `n` the 1-based ordinal). -/
def outFileName (n : Nat) (title : String) : List Char :=
  pad2 n ++ '_' :: (sanitizeTitle title ++ ['.', 'd', 'o', 'c', 'x'])

/-! ## The recomposition driver

```python
def split_docx_by_heading_with_images(docx_path, output_dir, heading_style="Heading 1", progress_callback=None):
    os.makedirs(output_dir, exist_ok=True)
    temp_img_dir = os.path.join(output_dir, "temp_images")
    os.makedirs(temp_img_dir, exist_ok=True)
    doc = Document_factory(docx_path)
    sections = []
    blocks = list(iter_block_items(doc))
    if not blocks: return 0
    ...sections built from section_indices...
    total = len(sections)
    for i, (title, section_doc) in enumerate(sections):
        safe_title = ...; out_path = ...
        section_doc.save(out_path)
        if progress_callback: progress_callback(i + 1, total)
    if os.path.exists(temp_img_dir):
        shutil.rmtree(temp_img_dir)
    return total
```

The driver's filesystem effects are modelled explicitly: the scratch
directory is created up front, the save loop writes one file per section
and `saveFails i = true` models `section_doc.save` raising a write error at
the i-th section (the exception propagates: the function never reaches the
`shutil.rmtree` cleanup, and no value is returned).  Only on the full
success path is `temp_images` removed. -/

/-- The observable outcome of one driver call: the returned section count
(`none` when an exception propagated), the output files successfully
written, and whether `temp_images` still exists afterwards. -/
structure DriverResult where
  result : Option Nat
  filesWritten : List (List Char)
  scratchExists : Bool
deriving DecidableEq

def split_docx_by_heading_with_images (hs : String) (blocks : List Block)
    (saveFails : Nat → Bool) : DriverResult :=
  -- os.makedirs(output_dir); os.makedirs(temp_img_dir): the scratch directory now exists
  match blocks with
  | [] =>
      -- `if not blocks: return 0` — temp_images was just created and is left in place
      { result := some 0, filesWritten := [], scratchExists := true }
  | _ :: _ =>
      let secs := mkSections hs blocks
      let names := secs.enum.map fun is => outFileName (is.1 + 1) is.2.1
      match (List.range secs.length).find? saveFails with
      | none =>
          -- every save succeeded; `shutil.rmtree(temp_img_dir)` runs and `total` is returned
          { result := some secs.length, filesWritten := names, scratchExists := false }
      | some k =>
          -- the k-th save raised: files 0..k-1 were written, the cleanup is never reached
          { result := none, filesWritten := names.take k, scratchExists := true }

/-! ## Helper lemmas: strictly increasing boundary lists -/

lemma chain'_le_getLast? :
    ∀ {xs : List ℕ} {x m : ℕ}, List.Chain' (· < ·) (x :: xs) →
      (x :: xs).getLast? = some m → x ≤ m := by
  intro xs
  induction xs with
  | nil =>
      intro x m _ hlast
      simp only [List.getLast?_singleton, Option.some.injEq] at hlast
      omega
  | cons y ys ih =>
      intro x m hchain hlast
      rw [List.chain'_cons] at hchain
      rw [List.getLast?_cons_cons] at hlast
      have := ih hchain.2 hlast
      omega

lemma chain'_mem_le_getLast? :
    ∀ {xs : List ℕ} {m : ℕ}, List.Chain' (· < ·) xs → xs.getLast? = some m →
      ∀ x ∈ xs, x ≤ m := by
  intro xs
  induction xs with
  | nil => intro m _ _ x hx; cases hx
  | cons y ys ih =>
      intro m hchain hlast x hx
      rcases List.mem_cons.mp hx with rfl | hx
      · exact chain'_le_getLast? hchain hlast
      · cases ys with
        | nil => cases hx
        | cons z zs =>
            rw [List.chain'_cons] at hchain
            rw [List.getLast?_cons_cons] at hlast
            exact ih hchain.2 hlast x hx

lemma chain'_zip_tail {α : Type*} {R : α → α → Prop} :
    ∀ {l : List α}, List.Chain' R l → ∀ p ∈ l.zip l.tail, R p.1 p.2 := by
  intro l
  induction l with
  | nil => intro _ p hp; cases hp
  | cons x t ih =>
      intro hchain p hp
      cases t with
      | nil => cases hp
      | cons y ys =>
          rw [List.chain'_cons] at hchain
          simp only [List.tail_cons, List.zip_cons_cons, List.mem_cons] at hp
          rcases hp with rfl | hp
          · exact hchain.1
          · exact ih hchain.2 p (by simpa using hp)

/-- Concatenating the slices of consecutive boundary pairs of a strictly
increasing list that ends at `l.length` reassembles the suffix from the
first boundary. -/
lemma flatten_slices (l : List Block) :
    ∀ (cs : List ℕ) (a : ℕ), List.Chain' (· < ·) (a :: cs) →
      (a :: cs).getLast? = some l.length →
      (((a :: cs).zip cs).map (sliceOf l)).flatten = (l.drop a).take (l.length - a) := by
  intro cs
  induction cs with
  | nil =>
      intro a _ hlast
      simp only [List.getLast?_singleton, Option.some.injEq] at hlast
      subst hlast
      simp
  | cons b cs ih =>
      intro a hchain hlast
      rw [List.chain'_cons] at hchain
      rw [List.getLast?_cons_cons] at hlast
      have hab : a < b := hchain.1
      have hblen : b ≤ l.length := chain'_le_getLast? hchain.2 hlast
      have ihe := ih b hchain.2 hlast
      simp only [List.zip_cons_cons, List.map_cons, List.flatten_cons] at ihe ⊢
      rw [ihe]
      show (l.drop a).take (b - a) ++ (l.drop b).take (l.length - b) = _
      have hdrop : l.drop b = (l.drop a).drop (b - a) := by
        rw [List.drop_drop]
        congr 1
        omega
      rw [hdrop, ← List.take_add]
      congr 1
      omega

/-! ## Helper lemmas: the shape of `section_indices` -/

lemma mem_headingIndices_iff {hs : String} {blocks : List Block} {x : ℕ} :
    x ∈ headingIndices hs blocks ↔
      ∃ b, blocks[x]? = some b ∧ isHeadingBlock hs b = true := by
  unfold headingIndices
  simp only [List.mem_map, List.mem_filter]
  constructor
  · rintro ⟨⟨i, b⟩, ⟨hmem, hhead⟩, rfl⟩
    exact ⟨b, List.mem_enum_iff_getElem?.mp hmem, hhead⟩
  · rintro ⟨b, hget, hhead⟩
    exact ⟨(x, b), ⟨List.mem_enum_iff_getElem?.mpr hget, hhead⟩, rfl⟩

lemma headingIndices_sublist (hs : String) (blocks : List Block) :
    (headingIndices hs blocks).Sublist (List.range blocks.length) := by
  unfold headingIndices
  have h1 : ((blocks.enum.filter fun ib => isHeadingBlock hs ib.2).map
      Prod.fst).Sublist (blocks.enum.map Prod.fst) :=
    List.Sublist.map _ (List.filter_sublist _)
  rwa [List.enum_map_fst] at h1

lemma headingIndices_pairwise (hs : String) (blocks : List Block) :
    List.Pairwise (· < ·) (headingIndices hs blocks) :=
  List.Pairwise.sublist (headingIndices_sublist hs blocks)
    (List.pairwise_lt_range _)

lemma headingIndices_lt {hs : String} {blocks : List Block} {x : ℕ}
    (hx : x ∈ headingIndices hs blocks) : x < blocks.length :=
  List.mem_range.mp ((headingIndices_sublist hs blocks).mem hx)

lemma section_indices_pairwise (hs : String) {blocks : List Block}
    (hne : blocks ≠ []) :
    List.Pairwise (· < ·) (section_indices hs blocks) := by
  have hlen : 0 < blocks.length := List.length_pos.mpr hne
  have hH := headingIndices_pairwise hs blocks
  have hHlt : ∀ x ∈ headingIndices hs blocks, x < blocks.length :=
    fun x hx => headingIndices_lt hx
  have htail : List.Pairwise (· < ·) (headingIndices hs blocks ++ [blocks.length]) := by
    rw [List.pairwise_append]
    exact ⟨hH, List.pairwise_singleton _ _, by simpa using hHlt⟩
  unfold section_indices
  by_cases hhead : ((blocks.head?.map (isHeadingBlock hs)).getD false) = true
  · simpa [hhead] using htail
  · simp only [hhead, if_neg, Bool.false_eq_true, not_false_eq_true]
    rw [List.append_assoc, List.singleton_append, List.pairwise_cons]
    refine ⟨?_, htail⟩
    intro a ha
    rcases List.mem_append.mp ha with ha | ha
    · rcases Nat.eq_zero_or_pos a with rfl | h
      · exfalso
        rcases mem_headingIndices_iff.mp ha with ⟨b, hget, hb⟩
        cases blocks with
        | nil => exact hne rfl
        | cons b0 bs =>
            simp only [List.getElem?_cons_zero, Option.some.injEq] at hget
            subst hget
            simp [List.head?_cons, hb] at hhead
      · exact h
    · rcases List.mem_singleton.mp ha with rfl
      exact hlen

lemma section_indices_getLast? (hs : String) (blocks : List Block) :
    (section_indices hs blocks).getLast? = some blocks.length := by
  unfold section_indices
  exact List.getLast?_concat _

lemma section_indices_head (hs : String) (b : Block) (bs : List Block) :
    ∃ rest, section_indices hs (b :: bs) = 0 :: rest := by
  unfold section_indices
  by_cases hb : isHeadingBlock hs b = true
  · refine ⟨(headingIndices hs (b :: bs)).tail ++ [(b :: bs).length], ?_⟩
    have hH : headingIndices hs (b :: bs)
        = 0 :: (headingIndices hs (b :: bs)).tail := by
      unfold headingIndices
      rw [List.enum_cons, List.filter_cons]
      simp [hb]
    simp only [List.head?_cons, Option.map_some', Option.getD_some, hb,
      if_true, List.nil_append]
    rw [hH]
    simp
  · simp [List.head?_cons, hb]

/-! ## Helper lemmas: the splitting loop -/

lemma filterMap_sectionOfPair_snd (hs : String) (blocks : List Block) :
    ∀ (n : ℕ) (ps : List (ℕ × ℕ)), (∀ p ∈ ps, p.1 < p.2) →
      (((List.enumFrom n ps).filterMap (sectionOfPair hs blocks)).map
          fun sec => sec.2)
        = ps.map (sliceOf blocks) := by
  intro n ps
  induction ps generalizing n with
  | nil => intro _; simp
  | cons p ps ih =>
      intro hlt
      have hp : p.1 < p.2 := hlt p (List.mem_cons_self p ps)
      have hbeq : (p.1 == p.2) = false :=
        beq_eq_false_iff_ne.mpr (Nat.ne_of_lt hp)
      rw [List.enumFrom_cons, List.filterMap_cons]
      simp only [sectionOfPair, hbeq, Bool.false_eq_true, if_false,
        List.map_cons]
      exact congrArg (_ :: ·) (ih (n + 1) fun q hq => hlt q (List.mem_cons_of_mem p hq))

lemma mkSections_chain' (hs : String) {blocks : List Block} (hne : blocks ≠ []) :
    List.Chain' (· < ·) (section_indices hs blocks) :=
  List.chain'_iff_pairwise.mpr (section_indices_pairwise hs hne)

lemma mkSections_snd (hs : String) {blocks : List Block} (hne : blocks ≠ []) :
    (mkSections hs blocks).map (fun sec => sec.2)
      = ((section_indices hs blocks).zip (section_indices hs blocks).tail).map
          (sliceOf blocks) := by
  show ((((section_indices hs blocks).zip
      (section_indices hs blocks).tail).enum.filterMap
        (sectionOfPair hs blocks)).map fun sec => sec.2) = _
  rw [List.enum_eq_enumFrom]
  exact filterMap_sectionOfPair_snd hs blocks 0 _
    (chain'_zip_tail (mkSections_chain' hs hne))

lemma mkSections_flatten (hs : String) {blocks : List Block} (hne : blocks ≠ []) :
    ((mkSections hs blocks).map (fun sec => sec.2)).flatten = blocks := by
  rw [mkSections_snd hs hne]
  obtain ⟨b, bs, rfl⟩ : ∃ b bs, blocks = b :: bs := by
    cases blocks with
    | nil => exact absurd rfl hne
    | cons b bs => exact ⟨b, bs, rfl⟩
  obtain ⟨rest, hidx⟩ := section_indices_head hs b bs
  have hchain := mkSections_chain' hs hne
  have hlast := section_indices_getLast? hs (b :: bs)
  rw [hidx] at hchain hlast ⊢
  have h := flatten_slices (b :: bs) rest 0 hchain hlast
  simpa using h

lemma mem_mkSections {hs : String} {blocks : List Block}
    {sec : String × List Block} (hne : blocks ≠ [])
    (hsec : sec ∈ mkSections hs blocks) :
    ∃ s e, (s, e) ∈ (section_indices hs blocks).zip (section_indices hs blocks).tail
      ∧ s < e ∧ e ≤ blocks.length ∧ sec.2 = sliceOf blocks (s, e) := by
  unfold mkSections at hsec
  rcases List.mem_filterMap.mp hsec with ⟨ip, hip, hsome⟩
  have hmem : ip.2 ∈ (section_indices hs blocks).zip (section_indices hs blocks).tail := by
    have h := List.mem_enum_iff_getElem?.mp hip
    rcases List.getElem?_eq_some_iff.mp h with ⟨hlen, hg⟩
    exact hg ▸ List.getElem_mem hlen
  have hlt : ip.2.1 < ip.2.2 :=
    chain'_zip_tail (mkSections_chain' hs hne) ip.2 hmem
  have hle : ip.2.2 ≤ blocks.length := by
    have h2 : ip.2.2 ∈ (section_indices hs blocks).tail := (List.of_mem_zip hmem).2
    exact chain'_mem_le_getLast? (mkSections_chain' hs hne)
      (section_indices_getLast? hs blocks) _ (List.mem_of_mem_tail h2)
  have hbeq : (ip.2.1 == ip.2.2) = false :=
    beq_eq_false_iff_ne.mpr (Nat.ne_of_lt hlt)
  simp only [sectionOfPair, hbeq, Bool.false_eq_true, if_false,
    Option.some.injEq] at hsome
  exact ⟨ip.2.1, ip.2.2, hmem, hlt, hle, by rw [← hsome]⟩

lemma slice_ne_nil {blocks : List Block} {s e : ℕ} (hlt : s < e)
    (hle : e ≤ blocks.length) : sliceOf blocks (s, e) ≠ [] := by
  apply List.ne_nil_of_length_pos
  unfold sliceOf
  rw [List.length_take, List.length_drop]
  simp only [lt_inf_iff]
  omega

lemma section_indices_heading_first {hs : String} {b : Block} {bs : List Block}
    (hb : isHeadingBlock hs b = true) :
    section_indices hs (b :: bs)
      = headingIndices hs (b :: bs) ++ [(b :: bs).length] := by
  simp [section_indices, hb]

lemma mkSections_heading_start {hs : String} {b : Block} {bs : List Block}
    (hb : isHeadingBlock hs b = true) {sec : String × List Block}
    (hsec : sec ∈ mkSections hs (b :: bs)) :
    ∃ c cs, sec.2 = c :: cs ∧ isHeadingBlock hs c = true := by
  obtain ⟨s, e, hmem, hlt, hle, hslice⟩ :=
    mem_mkSections (List.cons_ne_nil b bs) hsec
  have hs_idx : s ∈ section_indices hs (b :: bs) := (List.of_mem_zip hmem).1
  rw [section_indices_heading_first hb] at hs_idx
  rcases List.mem_append.mp hs_idx with hsH | hsLen
  · rcases mem_headingIndices_iff.mp hsH with ⟨blk, hget, hhead⟩
    rcases List.getElem?_eq_some_iff.mp hget with ⟨hslt, hgeq⟩
    obtain ⟨k, hk⟩ : ∃ k, e - s = k + 1 := ⟨e - s - 1, by omega⟩
    refine ⟨blk, ((b :: bs).drop (s + 1)).take k, ?_, hhead⟩
    rw [hslice]
    unfold sliceOf
    rw [List.drop_eq_getElem_cons hslt, hgeq, hk, List.take_succ_cons]
  · rcases List.mem_singleton.mp hsLen with rfl
    exact absurd (hlt.trans_le hle) (lt_irrefl _)

/-! ## Example documents -/

/-- A run holding only text. -/
def mkRun (s : String) : Run :=
  { text := s, bold := none, italic := none, underline := none,
    fontName := none, fontSize := none, fontColor := none, drawings := [] }

/-- A `Heading 1` paragraph holding one text run. -/
def mkHeading (s : String) : Block :=
  Block.para { styleName := "Heading 1", alignment := none, pPr := none,
               runs := [mkRun s] }

/-- A `Normal` paragraph holding one text run. -/
def mkPara (s : String) : Block :=
  Block.para { styleName := "Normal", alignment := none, pPr := none,
               runs := [mkRun s] }

/-! ## Claims about the section segmenter -/

/-- Claim C1: for every non-empty source block list, the sections produced
by the segmenter partition the top-level blocks — the block counts over all
sections sum to the number of top-level blocks, no section is empty, and
when the very first block is a heading every section begins with a heading
paragraph (so no leading `Introduction` section is produced). -/
theorem segmenter_partitions (hs : String) (blocks : List Block)
    (hne : blocks ≠ []) :
    (((mkSections hs blocks).map fun sec => sec.2.length).sum = blocks.length)
    ∧ (∀ sec ∈ mkSections hs blocks, sec.2 ≠ [])
    ∧ (∀ b bs, blocks = b :: bs → isHeadingBlock hs b = true →
        ∀ sec ∈ mkSections hs blocks,
          ∃ c cs, sec.2 = c :: cs ∧ isHeadingBlock hs c = true) := by
  refine ⟨?_, ?_, ?_⟩
  · have h := congrArg List.length (mkSections_flatten hs hne)
    rw [List.length_flatten, List.map_map] at h
    simpa [Function.comp] using h
  · intro sec hsec
    obtain ⟨s, e, _, hlt, hle, hslice⟩ := mem_mkSections hne hsec
    rw [hslice]
    exact slice_ne_nil hlt hle
  · rintro b bs rfl hb sec hsec
    exact mkSections_heading_start hb hsec

/-- A concrete instance of `segmenter_partitions`: an introduction
paragraph, a heading and a body paragraph partition into sections whose
block counts sum to 3. -/
def exC1Blocks : List Block := [mkPara "intro", mkHeading "One", mkPara "body"]

theorem segmenter_partitions_witness :
    ((mkSections "Heading 1" exC1Blocks).map fun sec => sec.2.length).sum
      = exC1Blocks.length :=
  (segmenter_partitions "Heading 1" exC1Blocks (List.cons_ne_nil _ _)).1

/-- The five-block scenario of claim C2. -/
def exC2Blocks : List Block :=
  [mkHeading "Intro-less para", mkHeading "A", mkPara "x", mkHeading "B",
   mkPara "y"]

/-- Claim C2: segmenting the five blocks
`[Heading1 "Intro-less para", Heading1 "A", Para "x", Heading1 "B", Para "y"]`
with heading style `Heading 1` yields boundary indices `[0, 1, 3, 5]` and
exactly three sections titled `Intro-less para`, `A`, `B` with block counts
1, 2, 2. -/
theorem segmenter_five_block_scenario :
    section_indices "Heading 1" exC2Blocks = [0, 1, 3, 5]
    ∧ (mkSections "Heading 1" exC2Blocks).map (fun sec => (sec.1, sec.2.length))
        = [("Intro-less para", 1), ("A", 2), ("B", 2)] := by
  exact ⟨rfl, rfl⟩

/-! ## Claims about the paragraph and table copiers -/

lemma copy_numbering_styleName (p : Paragraph) (tp : TPara) :
    (copy_numbering p tp).2.styleName = tp.styleName := by
  obtain ⟨s, al, pp, rs⟩ := p
  cases pp with
  | none => rfl
  | some pr =>
      obtain ⟨np⟩ := pr
      cases np with
      | none => rfl
      | some n => rfl

/-- The Python truthiness of the empty-paragraph guard, as a proposition. -/
lemma emptyCond_iff (p : Paragraph) :
    (pyStrip (paraText p) == "" && !(p.runs.any fun rn => !rn.drawings.isEmpty)) = true
      ↔ pyStrip (paraText p) = "" ∧ ∀ rn ∈ p.runs, rn.drawings = [] := by
  simp [List.any_eq_true, List.isEmpty_iff]

/-- Claim C9: for every source paragraph `copy_paragraph` appends exactly
one paragraph to the target container, and that paragraph is the bare
empty one if and only if the source paragraph has no non-whitespace text
and no image-bearing run. -/
theorem copy_paragraph_appends_one (parts : RelTable) (p : Paragraph) :
    ((copy_paragraph parts p).2.length = 1)
    ∧ ((copy_paragraph parts p).2 = [emptyTPara]
        ↔ pyStrip (paraText p) = "" ∧ ∀ rn ∈ p.runs, rn.drawings = []) := by
  unfold copy_paragraph
  by_cases hc :
      (pyStrip (paraText p) == "" && !(p.runs.any fun rn => !rn.drawings.isEmpty)) = true
  · rw [if_pos hc]
    exact ⟨rfl, ⟨fun _ => (emptyCond_iff p).mp hc, fun _ => rfl⟩⟩
  · rw [if_neg hc]
    refine ⟨rfl, ⟨fun h => ?_, fun hcond => absurd ((emptyCond_iff p).mpr hcond) hc⟩⟩
    exfalso
    have hhead := congrArg List.head? h
    simp only [List.head?_cons, Option.some.injEq] at hhead
    have hstyle := congrArg TPara.styleName hhead
    rw [copy_numbering_styleName] at hstyle
    exact Option.noConfusion hstyle

/-- Claim C4: a drawing that cannot be reproduced as an image is never
silently dropped — `copy_paragraph` appends exactly one italic placeholder
run whose message distinguishes the three failure cases (no relationship
id, id missing from the relationship table, resolved part not an image),
and every item a drawing contributes reaches the appended paragraph. -/
theorem drawing_failure_placeholders (parts : RelTable) (d : Drawing) :
    (drawingItems parts d ≠ [])
    ∧ (d.rId = none → drawingItems parts d = [placeholderItem shapeMsg])
    ∧ (∀ r, d.rId = some r → r ≠ "" → lookupRelated parts r = none →
        drawingItems parts d = [placeholderItem brokenLinkMsg])
    ∧ (∀ r, d.rId = some r → r ≠ "" →
        lookupRelated parts r = some RelatedPart.other →
        drawingItems parts d = [placeholderItem complexObjectMsg])
    ∧ (placeholderItem shapeMsg ≠ placeholderItem brokenLinkMsg
       ∧ placeholderItem brokenLinkMsg ≠ placeholderItem complexObjectMsg
       ∧ placeholderItem shapeMsg ≠ placeholderItem complexObjectMsg)
    ∧ (∀ msg, placeholderItem msg
        = TItem.run { text := msg, bold := none, italic := some true,
                      underline := none, fontName := none, fontSize := none,
                      fontColor := none })
    ∧ (∀ (p : Paragraph) (rn : Run), rn ∈ p.runs → d ∈ rn.drawings →
        ∀ it ∈ drawingItems parts d,
          ∃ tp ∈ (copy_paragraph parts p).2, it ∈ tp.items) := by
  refine ⟨?_, ?_, ?_, ?_, ⟨by decide, by decide, by decide⟩, fun _ => rfl, ?_⟩
  · unfold drawingItems
    cases hr : d.rId with
    | none => simp
    | some r =>
        by_cases hre : (r == "") = true
        · simp [hre]
        · cases hl : lookupRelated parts r with
          | none => simp [hre, hl]
          | some part => cases part <;> simp [hre, hl]
  · intro hr
    unfold drawingItems
    rw [hr]
    rfl
  · intro r hr hre hl
    unfold drawingItems
    rw [hr]
    simp only [Option.getD_some]
    rw [if_neg (by simpa using hre), hl]
  · intro r hr hre hl
    unfold drawingItems
    rw [hr]
    simp only [Option.getD_some]
    rw [if_neg (by simpa using hre), hl]
  · intro p rn hrn hd it hit
    have hdne : rn.drawings ≠ [] := by
      intro hnil
      rw [hnil] at hd
      cases hd
    have hany : (p.runs.any fun r' => !r'.drawings.isEmpty) = true :=
      List.any_eq_true.mpr ⟨rn, hrn, by
        simp [List.isEmpty_iff, hdne]⟩
    unfold copy_paragraph
    rw [if_neg (by simp [hany])]
    refine ⟨_, List.mem_singleton.mpr rfl, ?_⟩
    show it ∈ p.runs.flatMap fun r' =>
      copyRunItem r' :: r'.drawings.flatMap (drawingItems parts)
    exact List.mem_flatMap.mpr ⟨rn, hrn,
      List.mem_cons_of_mem _ (List.mem_flatMap.mpr ⟨d, hd, hit⟩)⟩

/-- The relationship table used by the C4 witness: one non-image part. -/
def exParts : RelTable :=
  [("rId7", RelatedPart.other), ("rId9", RelatedPart.image [137, 80] "png")]

theorem drawing_failure_placeholders_witness :
    drawingItems exParts { rId := some "rIdX", extentCx := none }
        = [placeholderItem brokenLinkMsg]
    ∧ drawingItems exParts { rId := none, extentCx := none }
        = [placeholderItem shapeMsg]
    ∧ drawingItems exParts { rId := some "rId7", extentCx := none }
        = [placeholderItem complexObjectMsg] :=
  ⟨(drawing_failure_placeholders exParts _).2.2.1 "rIdX" rfl (by decide) rfl,
   (drawing_failure_placeholders exParts _).2.1 rfl,
   (drawing_failure_placeholders exParts _).2.2.2.1 "rId7" rfl (by decide) rfl⟩

/-- Claim C8: for a successfully resolved inline image the appended
picture's width is the drawing's declared extent `cx` (EMU) divided by
914400 inches, and exactly 3 inches when the drawing has no extent
element; in neither case is the image omitted. -/
theorem image_width_from_extent (parts : RelTable) (d : Drawing) (r : String)
    (blob : List ℕ) (ext : String) (hr : d.rId = some r) (hre : r ≠ "")
    (hl : lookupRelated parts r = some (RelatedPart.image blob ext)) :
    drawingItems parts d = [TItem.picture (r ++ "." ++ ext) (drawingWidth d)]
    ∧ (∀ cx, d.extentCx = some cx → drawingWidth d = (cx : ℚ) / 914400)
    ∧ (d.extentCx = none → drawingWidth d = 3) := by
  refine ⟨?_, fun cx hcx => ?_, fun hcx => ?_⟩
  · unfold drawingItems
    rw [hr]
    simp only [Option.getD_some]
    rw [if_neg (by simpa using hre), hl]
  · unfold drawingWidth
    rw [hcx]
  · unfold drawingWidth
    rw [hcx]

/-- The relationship table used by the C8 witness: one image part. -/
def exImgParts : RelTable := [("rId9", RelatedPart.image [137, 80] "png")]

theorem image_width_from_extent_witness :
    drawingItems exImgParts { rId := some "rId9", extentCx := some 1828800 }
        = [TItem.picture "rId9.png"
            (drawingWidth { rId := some "rId9", extentCx := some 1828800 })]
    ∧ drawingWidth { rId := some "rId9", extentCx := some 1828800 }
        = (1828800 : ℚ) / 914400
    ∧ drawingWidth { rId := some "rId9", extentCx := none } = 3 :=
  ⟨(image_width_from_extent exImgParts _ "rId9" [137, 80] "png" rfl (by decide)
      rfl).1,
   (image_width_from_extent exImgParts _ "rId9" [137, 80] "png" rfl (by decide)
      rfl).2.1 1828800 rfl,
   (image_width_from_extent exImgParts
      { rId := some "rId9", extentCx := none } "rId9" [137, 80] "png" rfl
      (by decide) rfl).2.2 rfl⟩

/-- Claim C5: copying a table into a target that is itself a cell creates
no table object — it appends exactly one marker paragraph and then one
paragraph per source row holding the row's tab-joined stripped cell texts
(and, being total, it cannot raise). -/
theorem copy_table_cell_flattens (parts : RelTable) (captionAvailable : Bool)
    (t : Table) :
    copy_table parts captionAvailable t CopyTarget.cell
      = TBlock.para (markerTPara captionAvailable)
          :: t.rows.map (fun row => TBlock.para (plainTPara (nestedRowText row)))
    ∧ ∀ b ∈ copy_table parts captionAvailable t CopyTarget.cell,
        b.isTable = false := by
  refine ⟨rfl, ?_⟩
  intro b hb
  simp only [copy_table, copyTableCellBranch] at hb
  rcases List.mem_cons.mp hb with rfl | hb
  · rfl
  · rcases List.mem_map.mp hb with ⟨row, _, rfl⟩
    rfl

/-- A source paragraph carrying a `w:numPr` numbering reference. -/
def exNumberedPara : Paragraph :=
  { styleName := "List Paragraph", alignment := none,
    pPr := some { numPr := some { numId := 5, ilvl := 0 } },
    runs := [mkRun "item"] }

/-- Claim C6 is refuted by the code: `copy_numbering` appends the live
lxml `w:numPr` element to the target, which re-parents it — the numbering
reference disappears from the source paragraph, so a recomposition pass
mutates the source block model. -/
theorem copy_numbering_mutates_source :
    exNumberedPara.pPr = some { numPr := some { numId := 5, ilvl := 0 } }
    ∧ (copy_numbering exNumberedPara emptyTPara).1.pPr = some { numPr := none }
    ∧ (copy_numbering exNumberedPara emptyTPara).2.numPr
        = some { numId := 5, ilvl := 0 }
    ∧ (copy_paragraph [] exNumberedPara).1 ≠ exNumberedPara := by
  refine ⟨rfl, rfl, rfl, by decide⟩

/-! ## Claims about the recomposition driver -/

/-- Claim C3 is refuted by the code: the call at an empty source does
return 0 and writes nothing, but `temp_images` — created before the empty
check — still exists when the call returns. -/
theorem empty_source_claim_false :
    ¬ ((split_docx_by_heading_with_images "Heading 1" [] fun _ => false).result
          = some 0
       ∧ (split_docx_by_heading_with_images "Heading 1" [] fun _ => false).filesWritten
          = []
       ∧ (split_docx_by_heading_with_images "Heading 1" [] fun _ => false).scratchExists
          = false) := by
  intro h
  exact absurd h.2.2 (by decide)

/-- Claim C3 (amended): with zero top-level blocks the driver returns 0
and creates no output files, but the scratch directory — created
unconditionally before the empty check and never removed on this path —
still exists after the call returns. -/
theorem empty_source_returns_zero (hs : String) (saveFails : ℕ → Bool) :
    split_docx_by_heading_with_images hs [] saveFails
      = { result := some 0, filesWritten := [], scratchExists := true } := rfl

/-- Claim C7 is refuted by the code: a pass aborted by an output-write
error on its first save never reaches `shutil.rmtree`, so `temp_images`
still exists when the pass ends. -/
theorem aborted_save_leaves_scratch :
    (split_docx_by_heading_with_images "Heading 1" exC1Blocks
        fun _ => true).scratchExists = true := by
  rfl

/-- Claim C7 (amended): the scratch directory is gone at the end of a pass
exactly when the pass ran to completion — a non-empty source whose every
section save succeeded; after the empty-source early return or a pass
aborted by a write error it still exists. -/
theorem scratch_removed_iff (hs : String) (blocks : List Block)
    (saveFails : ℕ → Bool) :
    (split_docx_by_heading_with_images hs blocks saveFails).scratchExists = false
      ↔ blocks ≠ []
        ∧ ∀ i ∈ List.range (mkSections hs blocks).length, saveFails i = false := by
  cases blocks with
  | nil => simp [split_docx_by_heading_with_images]
  | cons b bs =>
      simp only [split_docx_by_heading_with_images]
      cases hfind : (List.range (mkSections hs (b :: bs)).length).find? saveFails with
      | none =>
          simp only [hfind]
          rw [List.find?_eq_none] at hfind
          constructor
          · intro _
            refine ⟨List.cons_ne_nil b bs, fun i hi => ?_⟩
            simpa using hfind i hi
          · intro _
            trivial
      | some k =>
          simp only [hfind]
          constructor
          · intro h
            exact absurd h (by decide)
          · rintro ⟨-, hall⟩
            have hk := hall k (List.mem_of_find?_eq_some hfind)
            rw [List.find?_some hfind] at hk
            cases hk

/-! ## Output file name distinctness -/

/-- Reading the leading decimal digits of a file name back as a number. -/
def decodeDigits (cs : List Char) : ℕ :=
  cs.foldl (fun acc c => acc * 10 + (c.toNat - 48)) 0

lemma decDigitsAux_zero (fuel : ℕ) : decDigitsAux fuel 0 = [] := by
  cases fuel <;> rfl

lemma decDigitsAux_succ (fuel m : ℕ) :
    decDigitsAux (fuel + 1) (m + 1)
      = decDigitsAux fuel ((m + 1) / 10) ++ [Nat.digitChar ((m + 1) % 10)] := rfl

lemma digitChar_isDigit {d : ℕ} (hd : d < 10) :
    (Nat.digitChar d).isDigit = true := by
  interval_cases d <;> rfl

lemma decodeDigits_append (xs : List Char) (c : Char) :
    decodeDigits (xs ++ [c]) = (decodeDigits xs) * 10 + (c.toNat - 48) := by
  unfold decodeDigits
  rw [List.foldl_append]
  rfl

lemma decodeDigits_cons_zero (cs : List Char) :
    decodeDigits ('0' :: cs) = decodeDigits cs := rfl

lemma decDigitsAux_spec :
    ∀ (fuel n : ℕ), 0 < n → n ≤ fuel →
      decodeDigits (decDigitsAux fuel n) = n
      ∧ ∀ c ∈ decDigitsAux fuel n, c.isDigit = true := by
  intro fuel
  induction fuel with
  | zero => intro n h1 h2; omega
  | succ fuel ih =>
      intro n h1 h2
      obtain ⟨m, rfl⟩ : ∃ m, n = m + 1 := ⟨n - 1, by omega⟩
      have hmod : (m + 1) % 10 < 10 := Nat.mod_lt _ (by omega)
      rw [decDigitsAux_succ]
      rcases Nat.eq_zero_or_pos ((m + 1) / 10) with hq | hq
      · rw [hq, decDigitsAux_zero, List.nil_append]
        constructor
        · show (0 * 10 + ((Nat.digitChar ((m + 1) % 10)).toNat - 48)) = m + 1
          have : (Nat.digitChar ((m + 1) % 10)).toNat - 48 = (m + 1) % 10 := by
            interval_cases h : ((m + 1) % 10) <;> rfl
          rw [this]
          omega
        · intro c hc
          rcases List.mem_singleton.mp hc with rfl
          exact digitChar_isDigit hmod
      · have hle : (m + 1) / 10 ≤ fuel := by omega
        obtain ⟨ihdec, ihdig⟩ := ih ((m + 1) / 10) hq hle
        constructor
        · rw [decodeDigits_append, ihdec]
          have : (Nat.digitChar ((m + 1) % 10)).toNat - 48 = (m + 1) % 10 := by
            interval_cases h : ((m + 1) % 10) <;> rfl
          rw [this]
          omega
        · intro c hc
          rcases List.mem_append.mp hc with hc | hc
          · exact ihdig c hc
          · rcases List.mem_singleton.mp hc with rfl
            exact digitChar_isDigit hmod

lemma decodeDigits_decRepr {n : ℕ} (hn : 0 < n) :
    decodeDigits (decRepr n) = n := by
  unfold decRepr
  rw [if_neg (by omega)]
  exact (decDigitsAux_spec n n hn le_rfl).1

lemma decRepr_digits {n : ℕ} (hn : 0 < n) :
    ∀ c ∈ decRepr n, c.isDigit = true := by
  unfold decRepr
  rw [if_neg (by omega)]
  exact (decDigitsAux_spec n n hn le_rfl).2

lemma decodeDigits_pad2 {n : ℕ} (hn : 0 < n) : decodeDigits (pad2 n) = n := by
  unfold pad2
  by_cases h : n < 10
  · rw [if_pos h, decodeDigits_cons_zero]
    exact decodeDigits_decRepr hn
  · rw [if_neg h]
    exact decodeDigits_decRepr hn

lemma pad2_digits {n : ℕ} (hn : 0 < n) : ∀ c ∈ pad2 n, c.isDigit = true := by
  unfold pad2
  by_cases h : n < 10
  · rw [if_pos h]
    intro c hc
    rcases List.mem_cons.mp hc with rfl | hc
    · rfl
    · exact decRepr_digits hn c hc
  · rw [if_neg h]
    exact decRepr_digits hn

lemma takeWhile_append_not {p : Char → Bool} :
    ∀ (xs : List Char) (y : Char) (ys : List Char),
      (∀ x ∈ xs, p x = true) → p y = false →
      (xs ++ y :: ys).takeWhile p = xs := by
  intro xs
  induction xs with
  | nil =>
      intro y ys _ hy
      simp [List.takeWhile_cons, hy]
  | cons x xs ih =>
      intro y ys hall hy
      have hx := hall x (List.mem_cons_self x xs)
      simp only [List.cons_append, List.takeWhile_cons, hx, if_true]
      rw [ih y ys (fun z hz => hall z (List.mem_cons_of_mem x hz)) hy]

lemma decode_outFileName {n : ℕ} (hn : 0 < n) (title : String) :
    decodeDigits ((outFileName n title).takeWhile Char.isDigit) = n := by
  unfold outFileName
  rw [takeWhile_append_not (pad2 n) '_' _ (pad2_digits hn) rfl]
  exact decodeDigits_pad2 hn

lemma outFileName_inj {n m : ℕ} (hn : 0 < n) (hm : 0 < m) {t u : String}
    (h : outFileName n t = outFileName m u) : n = m := by
  have h1 := decode_outFileName hn t
  rw [h, decode_outFileName hm u] at h1
  omega

lemma names_nodup (hs : String) (blocks : List Block) :
    ((mkSections hs blocks).enum.map
        fun is => outFileName (is.1 + 1) is.2.1).Nodup := by
  apply List.Nodup.map_on
  · intro x hx y hy hf
    obtain ⟨i, a⟩ := x
    obtain ⟨j, b⟩ := y
    have hij : i = j := by
      have := outFileName_inj (Nat.succ_pos i) (Nat.succ_pos j) hf
      omega
    subst hij
    have hx' := List.mem_enum_iff_getElem?.mp hx
    have hy' := List.mem_enum_iff_getElem?.mp hy
    rw [hx'] at hy'
    rw [Option.some.injEq] at hy'
    have hab : a = b := hy'
    rw [hab]
  · exact List.Nodup.of_map Prod.fst
      (by rw [List.enum_map_fst]; exact List.nodup_range _)

/-- Claim C10: within one pass all written output file names are pairwise
distinct — the 1-based zero-padded ordinal prefix differs even when two
sanitized titles coincide or a sanitized title is empty. -/
theorem output_filenames_distinct :
    (∀ (n m : ℕ) (t u : String), n ≠ m →
        outFileName (n + 1) t ≠ outFileName (m + 1) u)
    ∧ ∀ (hs : String) (blocks : List Block) (saveFails : ℕ → Bool),
        (split_docx_by_heading_with_images hs blocks saveFails).filesWritten.Nodup := by
  constructor
  · intro n m t u hnm h
    have := outFileName_inj (Nat.succ_pos n) (Nat.succ_pos m) h
    omega
  · intro hs blocks saveFails
    cases blocks with
    | nil => simp [split_docx_by_heading_with_images]
    | cons b bs =>
        simp only [split_docx_by_heading_with_images]
        cases hfind : (List.range (mkSections hs (b :: bs)).length).find? saveFails with
        | none =>
            simp only [hfind]
            exact names_nodup hs (b :: bs)
        | some k =>
            simp only [hfind]
            exact (names_nodup hs (b :: bs)).sublist (List.take_sublist k _)

end DocxSplit
